import Mathlib

/-!
Verification of the SIMD-Accelerated Market Data Parser core.

Shallow embedding of the repository's parsing pipeline:
* `find_delimiters_scalar` and `find_delimiters_simd`
  (src/src/simd_utils.cpp): byte buffers are `List Char`, offsets are `Nat`;
  the 64-bit AVX-512 comparison mask is a `Nat` built little-endian
  (bit `j` set iff byte `pos + j` equals the delimiter), and the
  `ctz` / clear-lowest-set-bit extraction loop is embedded directly.
* `parse_int` / `parse_double` (src/src/simd_utils.cpp): the
  `std::from_chars` fast path for `int32_t` is embedded with its exact
  documented semantics (optional leading minus, longest digit run, failure
  when no digit or out of the int32 range) and the manual fallback loops are
  embedded over `Int`.  The C++ fallback accumulator is an `int32_t` whose
  overflow is undefined behaviour; the embedding uses unbounded `Int`, and no
  theorem below touches the overflow regime.  `parse_double` embeds the manual
  fallback path over `ℚ` (the `#ifdef __cpp_lib_to_chars` primary path
  delegates to the platform's floating-point `std::from_chars` and is outside
  the embedding; the fallback's double arithmetic is exact on the
  integer-valued inputs the theorems use).
* `split_field`, `populate_message`, `parse_scalar`, `parse_simd`
  (src/include/parser.hpp in the repository's merged header/impl):
  `FIXMessage` keeps string_view slots as `List Char` slices, `uint32_t tag`
  is a `Nat` reduced mod 2^32.
-/

/-- Number of trailing zero bits of a natural number (`__builtin_ctzll`);
returns 0 on input 0, which the extraction loop never passes. -/
def ctz (n : Nat) : Nat :=
  if h : n = 0 then 0
  else if n % 2 = 1 then 0
  else ctz (n / 2) + 1
termination_by n
decreasing_by exact Nat.div_lt_self (Nat.pos_of_ne_zero h) (by omega)

/-- Ascending list of the set-bit indices of a natural number, used as the
specification of the mask-extraction loop. -/
def bitIndices (n : Nat) : List Nat :=
  if h : n = 0 then []
  else (if n % 2 = 1 then [0] else []) ++ (bitIndices (n / 2)).map (· + 1)
termination_by n
decreasing_by exact Nat.div_lt_self (Nat.pos_of_ne_zero h) (by omega)

/-- Embedding of the mask-extraction loop of `find_delimiters_simd`
(src/src/simd_utils.cpp lines 79-87): while the mask is nonzero, emit
`base + ctz mask` and clear the lowest set bit via `mask &&& (mask - 1)`. -/
def extractMask (base : Nat) (mask : Nat) : List Nat :=
  if h : mask = 0 then []
  else (base + ctz mask) :: extractMask base (mask &&& (mask - 1))
termination_by mask
decreasing_by
  exact Nat.lt_of_le_of_lt Nat.and_le_right
    (Nat.sub_lt (Nat.pos_of_ne_zero h) Nat.one_pos)

/-- Embedding of a scalar index loop `for i in [pos, pos+width) push i when
data[i] == d`; with `pos = 0, width = data.length` this is
`find_delimiters_scalar`, and it also embeds the remainder loop of
`find_delimiters_simd`. -/
def scanRange (data : List Char) (d : Char) (pos : Nat) : Nat → List Nat
  | 0 => []
  | w + 1 =>
    (if data.get? pos = some d then [pos] else []) ++ scanRange data d (pos + 1) w

/-- Embedding of `find_delimiters_scalar` (src/src/simd_utils.cpp lines
40-51): append every index whose byte equals the delimiter, in ascending
order. -/
def find_delimiters_scalar (data : List Char) (d : Char) : List Nat :=
  scanRange data d 0 data.length

/-- Embedding of the `_mm512_cmpeq_epi8_mask` comparison of one 64-byte
chunk, generalized over the width: bit `j` of the result is set iff byte
`pos + j` equals the delimiter. -/
def chunkMask (data : List Char) (d : Char) (pos : Nat) : Nat → Nat
  | 0 => 0
  | w + 1 =>
    (if data.get? pos = some d then 1 else 0) + 2 * chunkMask data d (pos + 1) w

/-- Embedding of the main SIMD loop of `find_delimiters_simd`: one iteration
per full 64-byte chunk, each building the comparison mask and draining it
with the extraction loop, advancing `pos` by 64. -/
def simdChunks (data : List Char) (d : Char) : Nat → Nat → List Nat
  | _, 0 => []
  | pos, k + 1 =>
    extractMask pos (chunkMask data d pos 64) ++ simdChunks data d (pos + 64) k

/-- Embedding of `find_delimiters_simd` (src/src/simd_utils.cpp lines
53-97): process `simd_end / 64` full chunks (where
`simd_end = size - size % 64`), then scan the remaining `size - simd_end`
bytes with the scalar loop. -/
def find_delimiters_simd (data : List Char) (d : Char) : List Nat :=
  simdChunks data d 0 ((data.length - data.length % 64) / 64) ++
    scanRange data d (data.length - data.length % 64)
      (data.length - (data.length - data.length % 64))

/-- Value accumulated from a run of decimal digit characters, as both the
`std::from_chars` fast path and the manual loop compute it:
`acc = acc * 10 + (c - '0')`. -/
def accumDigits (ds : List Char) : Nat :=
  ds.foldl (fun acc c => acc * 10 + (c.toNat - 48)) 0

/-- Embedding of the shared sign idiom
`if (!str.empty() && str[0] == '-') { negative = true; i = 1; }`: the
negative flag and the text after the optional leading minus. -/
def stripSign (s : List Char) : Bool × List Char :=
  match s with
  | [] => (false, [])
  | c :: r => if c = '-' then (true, r) else (false, c :: r)

/-- Embedding of the `std::from_chars` fast path of `parse_int`
(src/src/simd_utils.cpp lines 103-112) with the documented `from_chars`
semantics for `int32_t`, base 10: an optional leading minus, then the longest
run of decimal digits; `none` when that run is empty (`invalid_argument`,
e.g. a leading plus, a lone minus, or any non-digit start) or when the
signed value falls outside the `int32_t` range (`result_out_of_range`). -/
def fromCharsInt32 (s : List Char) : Option Int :=
  if (stripSign s).2.takeWhile Char.isDigit = [] then none
  else if (stripSign s).1 then
    if (accumDigits ((stripSign s).2.takeWhile Char.isDigit) : Int) ≤ 2 ^ 31 then
      some (-(accumDigits ((stripSign s).2.takeWhile Char.isDigit) : Int))
    else none
  else
    if (accumDigits ((stripSign s).2.takeWhile Char.isDigit) : Int) ≤ 2 ^ 31 - 1 then
      some (accumDigits ((stripSign s).2.takeWhile Char.isDigit) : Int)
    else none

/-- Embedding of the manual fallback loop of `parse_int`
(src/src/simd_utils.cpp lines 114-131): note a leading `'-'`, then
accumulate digits until the first non-digit, then negate.  The C++
accumulator is an `int32_t` with undefined behaviour on overflow; the
embedding accumulates in unbounded `Int` and no theorem below relies on the
overflow regime. -/
def parse_int_fallback (s : List Char) : Int :=
  let p := stripSign s
  let result : Int := accumDigits (p.2.takeWhile Char.isDigit)
  if p.1 then -result else result

/-- Embedding of `parse_int` (src/src/simd_utils.cpp lines 99-132): use the
`from_chars` fast path when it succeeds, otherwise the manual fallback. -/
def parse_int (s : List Char) : Int :=
  match fromCharsInt32 s with
  | some v => v
  | none => parse_int_fallback s

/-- Embedding of the integer-part loop of `parse_double`
(src/src/simd_utils.cpp lines 160-166): scan until `'.'` or the end,
accumulating digit characters and silently skipping every other character;
returns the accumulated value and the unscanned suffix. -/
def intPartLoop : List Char → ℚ → ℚ × List Char
  | [], acc => (acc, [])
  | c :: t, acc =>
    if c = '.' then (acc, c :: t)
    else intPartLoop t (if c.isDigit then acc * 10 + ((c.toNat - 48 : Nat) : ℚ) else acc)

/-- Embedding of the fractional-part loop of `parse_double`
(src/src/simd_utils.cpp lines 168-179): add each digit divided by an
increasing power of ten, stopping at the first non-digit. -/
def fracLoop : List Char → ℚ → ℚ → ℚ
  | [], _, acc => acc
  | c :: t, divisor, acc =>
    if c.isDigit then fracLoop t (divisor * 10) (acc + ((c.toNat - 48 : Nat) : ℚ) / divisor)
    else acc

/-- Embedding of the manual fallback path of `parse_double`
(src/src/simd_utils.cpp lines 152-183) over `ℚ`: optional leading minus,
integer part, then fractional part after a `'.'`.  The C++ function first
tries `std::from_chars` for `double` when `__cpp_lib_to_chars` is defined —
a platform floating-point conversion outside this embedding — and falls back
to this manual path; the manual path's `double` arithmetic is exact on the
integer-valued inputs used by the theorems below. -/
def parse_double (s : List Char) : ℚ :=
  let sg := stripSign s
  let p := intPartLoop sg.2 0
  let fp : ℚ := (match p.2 with | '.' :: t => fracLoop t 10 0 | _ => 0)
  if sg.1 then -(p.1 + fp) else p.1 + fp

/-- Embedding of `FIXMessage` (include/fix_message.hpp): string_view slots
are slices of the input, default-constructed empty; numeric slots start at
zero and `valid` at false. -/
structure FIXMessage where
  message_type : List Char := []
  symbol : List Char := []
  sender : List Char := []
  target : List Char := []
  side : Int := 0
  price : ℚ := 0
  quantity : Int := 0
  valid : Bool := false
deriving DecidableEq, Repr

/-- Embedding of `std::string_view::find` for a single character: index of
the first occurrence, `none` for `npos`. -/
def findChar (c : Char) : List Char → Option Nat
  | [] => none
  | a :: t => if a = c then some 0 else (findChar c t).map (· + 1)

/-- Embedding of the `uint32_t tag` out-parameter of `split_field`: the
`int32_t` result of `parse_int` converted to `uint32_t`, i.e. reduced
mod 2^32. -/
def toTag (i : Int) : Nat := (i % (2 ^ 32 : Int)).toNat

/-- Embedding of `split_field` (parser implementation): find the first `'='`;
fail when absent or at offset zero; otherwise the text before it, run through
`parse_int`, is the tag and the text after it is the value. -/
def split_field (field : List Char) : Option (Nat × List Char) :=
  match findChar '=' field with
  | none => none
  | some eq_pos =>
    if eq_pos = 0 then none
    else some (toTag (parse_int (field.take eq_pos)), field.drop (eq_pos + 1))

/-- Embedding of `populate_message` (parser implementation): route a
tag/value pair to its slot by the `FIXTag` codes (35 MessageType, 55 Symbol,
49 SenderCompID, 56 TargetCompID, 54 Side, 44 Price, 38 OrderQty); unknown
tags are ignored. -/
def populate_message (msg : FIXMessage) (tag : Nat) (value : List Char) : FIXMessage :=
  if tag = 35 then { msg with message_type := value }
  else if tag = 55 then { msg with symbol := value }
  else if tag = 49 then { msg with sender := value }
  else if tag = 56 then { msg with target := value }
  else if tag = 54 then { msg with side := parse_int value }
  else if tag = 44 then { msg with price := parse_double value }
  else if tag = 38 then { msg with quantity := parse_int value }
  else msg

/-- One field-processing step of the parse loop: split the field and, when
the split succeeds, populate the record; a malformed field leaves the record
unchanged. -/
def applyField (msg : FIXMessage) (field : List Char) : FIXMessage :=
  match split_field field with
  | some tv => populate_message msg tv.1 tv.2
  | none => msg

/-- Embedding of the delimiter loop of `parse_scalar` / `parse_simd`: walk
the delimiter positions, processing the slice `[start, delim_pos)` whenever
it is nonempty, and return the record with the final `start` cursor
(`delim_pos + 1` of the last delimiter). -/
def fieldLoop (message : List Char) : FIXMessage → Nat → List Nat → FIXMessage × Nat
  | msg, start, [] => (msg, start)
  | msg, start, dp :: rest =>
    fieldLoop message
      (if start < dp then applyField msg ((message.drop start).take (dp - start)) else msg)
      (dp + 1) rest

/-- Shared body of `parse_scalar` and `parse_simd` after delimiter finding:
run the field loop, process the trailing field when the message does not end
with a delimiter, then stamp validity. -/
def parse_core (message : List Char) (delimiters : List Nat) : FIXMessage :=
  let p := fieldLoop message {} 0 delimiters
  let msg := if p.2 < message.length then applyField p.1 (message.drop p.2) else p.1
  { msg with valid := !msg.message_type.isEmpty && !msg.symbol.isEmpty }

/-- Embedding of `parse_scalar` (parser implementation): empty input returns
the default record; otherwise scan with the scalar scanner and parse. -/
def parse_scalar (message : List Char) : FIXMessage :=
  if message = [] then {}
  else parse_core message (find_delimiters_scalar message '|')

/-- Embedding of `parse_simd` (parser implementation): identical to
`parse_scalar` except delimiters come from the vectorized scanner. -/
def parse_simd (message : List Char) : FIXMessage :=
  if message = [] then {}
  else parse_core message (find_delimiters_simd message '|')

/-- Fields the parse loop actually hands to `split_field`, in order: the
nonempty slices between consecutive boundaries and, when `start` is still
inside the buffer after the last delimiter, the trailing slice. -/
def tokenizeLoop (message : List Char) : Nat → List Nat → List (List Char)
  | start, [] => if start < message.length then [message.drop start] else []
  | start, dp :: rest =>
    (if start < dp then [(message.drop start).take (dp - start)] else []) ++
      tokenizeLoop message (dp + 1) rest

/-- Field list of the whole parse of a message (empty input is rejected
before tokenization, matching the early return of the parsers). -/
def tokenize (message : List Char) : List (List Char) :=
  if message = [] then []
  else tokenizeLoop message 0 (find_delimiters_scalar message '|')

/-- Validity stamping applied at the end of both parsers. -/
def setValid (msg : FIXMessage) : FIXMessage :=
  { msg with valid := !msg.message_type.isEmpty && !msg.symbol.isEmpty }

/-- Final value of the `start` cursor after the field loop walks a position
list: one past the last position, or the initial value when the list is
empty. -/
def lastCursor (start : Nat) : List Nat → Nat
  | [] => start
  | dp :: rest => lastCursor (dp + 1) rest

/-- Start offset of the trailing field of a parse: one past the last
delimiter, or 0 when the message has no delimiter. -/
def lastFieldStart (message : List Char) : Nat :=
  lastCursor 0 (find_delimiters_scalar message '|')

theorem ctz_odd {n : Nat} (h : n % 2 = 1) : ctz n = 0 := by
  rw [ctz]
  simp [h, Nat.ne_of_gt (by omega : 0 < n)]

theorem ctz_even {n : Nat} (h0 : n ≠ 0) (h : n % 2 = 0) : ctz n = ctz (n / 2) + 1 := by
  rw [ctz]
  simp [h0, h]

theorem bitIndices_zero : bitIndices 0 = [] := by
  rw [bitIndices]; simp

theorem bitIndices_two_mul (m : Nat) :
    bitIndices (2 * m) = (bitIndices m).map (· + 1) := by
  rcases Nat.eq_zero_or_pos m with hm | hm
  · subst hm; simp [bitIndices_zero]
  · rw [bitIndices]
    have h0 : 2 * m ≠ 0 := by omega
    have h1 : 2 * m % 2 = 0 := by omega
    have h2 : 2 * m / 2 = m := by omega
    simp [h0, h1, h2]

theorem bitIndices_two_mul_add_one (m : Nat) :
    bitIndices (2 * m + 1) = 0 :: (bitIndices m).map (· + 1) := by
  rw [bitIndices]
  have h1 : (2 * m + 1) % 2 = 1 := by omega
  have h2 : (2 * m + 1) / 2 = m := by omega
  simp [h1, h2]

theorem land_two_mul_add_one (m : Nat) : (2 * m + 1) &&& (2 * m) = 2 * m := by
  have h := Nat.land_bit true m false m
  simpa [Nat.bit_val] using h

theorem land_two_mul_pred {m : Nat} (hm : 0 < m) :
    (2 * m) &&& (2 * m - 1) = 2 * (m &&& (m - 1)) := by
  have h := Nat.land_bit false m true (m - 1)
  have e : 2 * (m - 1) + 1 = 2 * m - 1 := by omega
  simpa [Nat.bit_val, e] using h

/-- Clearing the lowest set bit removes exactly the head of the ascending
set-bit index list, and `ctz` names that head. -/
theorem bitIndices_cons (n : Nat) (hn : n ≠ 0) :
    bitIndices n = ctz n :: bitIndices (n &&& (n - 1)) := by
  induction n using Nat.strong_induction_on with
  | _ n ih =>
    rcases Nat.even_or_odd n with he | ho
    · obtain ⟨m, hm⟩ := he
      have hmpos : 0 < m := by omega
      have hn2 : n = 2 * m := by omega
      subst hn2
      have hml : m < 2 * m := by omega
      have hkey := ih m hml (by omega)
      have e1 : ctz (2 * m) = ctz m + 1 := by
        rw [ctz_even (by omega) (by omega)]
        have e : 2 * m / 2 = m := by omega
        rw [e]
      calc bitIndices (2 * m) = (bitIndices m).map (· + 1) := bitIndices_two_mul m
        _ = ((ctz m :: bitIndices (m &&& (m - 1)))).map (· + 1) := by rw [hkey]
        _ = (ctz m + 1) :: (bitIndices (m &&& (m - 1))).map (· + 1) := rfl
        _ = ctz (2 * m) :: bitIndices (2 * (m &&& (m - 1))) := by
              rw [e1, bitIndices_two_mul]
        _ = ctz (2 * m) :: bitIndices ((2 * m) &&& (2 * m - 1)) := by
              rw [land_two_mul_pred hmpos]
    · obtain ⟨m, hm⟩ := ho
      subst hm
      rw [bitIndices_two_mul_add_one, ctz_odd (by omega)]
      have e : 2 * m + 1 - 1 = 2 * m := by omega
      rw [e, land_two_mul_add_one, bitIndices_two_mul]

/-- The extraction loop emits exactly the ascending set-bit indices of the
mask, shifted by the chunk base offset. -/
theorem extractMask_eq (base : Nat) (mask : Nat) :
    extractMask base mask = (bitIndices mask).map (base + ·) := by
  induction mask using Nat.strong_induction_on with
  | _ mask ih =>
    by_cases h : mask = 0
    · subst h; rw [extractMask, bitIndices_zero]; simp
    · rw [extractMask]
      have hlt : mask &&& (mask - 1) < mask :=
        Nat.lt_of_le_of_lt Nat.and_le_right
          (Nat.sub_lt (Nat.pos_of_ne_zero h) Nat.one_pos)
      rw [dif_neg h, ih _ hlt, bitIndices_cons mask h]
      simp

/-- The per-chunk comparison mask decodes to exactly the scalar scan of the
same byte window. -/
theorem bitIndices_chunkMask (data : List Char) (d : Char) :
    ∀ (w pos : Nat),
      (bitIndices (chunkMask data d pos w)).map (pos + ·) = scanRange data d pos w := by
  intro w
  induction w with
  | zero => intro pos; simp [chunkMask, scanRange, bitIndices_zero]
  | succ w ih =>
    intro pos
    rw [chunkMask, scanRange]
    have hf : ((fun x => pos + x) ∘ (fun x => x + 1)) = (fun x => pos + 1 + x) := by
      funext j
      show pos + (j + 1) = pos + 1 + j
      omega
    by_cases hc : data.get? pos = some d
    · have hm : (if data.get? pos = some d then 1 else 0) + 2 * chunkMask data d (pos + 1) w
          = 2 * chunkMask data d (pos + 1) w + 1 := by
        rw [if_pos hc]; omega
      rw [hm, bitIndices_two_mul_add_one, if_pos hc]
      rw [List.map_cons, List.map_map, hf, ih (pos + 1)]
      simp
    · have hm : (if data.get? pos = some d then 1 else 0) + 2 * chunkMask data d (pos + 1) w
          = 2 * chunkMask data d (pos + 1) w := by
        rw [if_neg hc]; omega
      rw [hm, bitIndices_two_mul, if_neg hc]
      rw [List.map_map, hf, ih (pos + 1)]
      simp

theorem scanRange_append (data : List Char) (d : Char) :
    ∀ (a : Nat) (pos b : Nat),
      scanRange data d pos (a + b) = scanRange data d pos a ++ scanRange data d (pos + a) b := by
  intro a
  induction a with
  | zero => intro pos b; simp [scanRange]
  | succ a ih =>
    intro pos b
    have : a + 1 + b = (a + b) + 1 := by omega
    rw [this, scanRange, scanRange, ih (pos + 1) b, List.append_assoc]
    have : pos + 1 + a = pos + (a + 1) := by omega
    rw [this]

/-- The chunked SIMD main loop scans exactly `64 * k` bytes the scalar way. -/
theorem simdChunks_eq (data : List Char) (d : Char) :
    ∀ (k pos : Nat), simdChunks data d pos k = scanRange data d pos (64 * k) := by
  intro k
  induction k with
  | zero => intro pos; simp [simdChunks, scanRange]
  | succ k ih =>
    intro pos
    rw [simdChunks, extractMask_eq, bitIndices_chunkMask, ih (pos + 64)]
    have : 64 * (k + 1) = 64 + 64 * k := by omega
    rw [this, scanRange_append]

/-- The vectorized scanner agrees with the scalar scanner on every input and
delimiter: chunks plus remainder cover the buffer exactly once, in order. -/
theorem find_delimiters_simd_eq_scalar (data : List Char) (d : Char) :
    find_delimiters_simd data d = find_delimiters_scalar data d := by
  unfold find_delimiters_simd find_delimiters_scalar
  rw [simdChunks_eq]
  have e1 : 64 * ((data.length - data.length % 64) / 64)
      = data.length - data.length % 64 := by omega
  rw [e1]
  have h := scanRange_append data d (data.length - data.length % 64) 0
      (data.length - (data.length - data.length % 64))
  rw [Nat.zero_add] at h
  have e3 : data.length - data.length % 64
      + (data.length - (data.length - data.length % 64)) = data.length := by omega
  rw [e3] at h
  exact h.symm

theorem scanRange_mem (data : List Char) (d : Char) :
    ∀ (w pos p : Nat), p ∈ scanRange data d pos w → pos ≤ p ∧ p < pos + w := by
  intro w
  induction w with
  | zero => intro pos p hp; simp [scanRange] at hp
  | succ w ih =>
    intro pos p hp
    rw [scanRange] at hp
    rcases List.mem_append.mp hp with h1 | h2
    · by_cases hc : data.get? pos = some d
      · rw [if_pos hc] at h1
        simp at h1
        omega
      · rw [if_neg hc] at h1
        simp at h1
    · have := ih (pos + 1) p h2
      omega

theorem scanRange_pairwise (data : List Char) (d : Char) :
    ∀ (w pos : Nat), List.Pairwise (· < ·) (scanRange data d pos w) := by
  intro w
  induction w with
  | zero => intro pos; simp [scanRange]
  | succ w ih =>
    intro pos
    rw [scanRange, List.pairwise_append]
    refine ⟨?_, ih (pos + 1), ?_⟩
    · by_cases hc : data.get? pos = some d
      · rw [if_pos hc]
        simp
      · rw [if_neg hc]
        simp
    · intro a ha b hb
      have hb2 := scanRange_mem data d w (pos + 1) b hb
      by_cases hc : data.get? pos = some d
      · rw [if_pos hc] at ha
        simp at ha
        omega
      · rw [if_neg hc] at ha
        simp at ha

theorem scanRange_char (data : List Char) (d : Char) :
    ∀ (w pos p : Nat), p ∈ scanRange data d pos w → data.get? p = some d := by
  intro w
  induction w with
  | zero => intro pos p hp; simp [scanRange] at hp
  | succ w ih =>
    intro pos p hp
    rw [scanRange] at hp
    rcases List.mem_append.mp hp with h1 | h2
    · by_cases hc : data.get? pos = some d
      · rw [if_pos hc] at h1
        simp at h1
        subst h1
        exact hc
      · rw [if_neg hc] at h1
        simp at h1
    · exact ih (pos + 1) p h2

theorem scanRange_of_not_mem (data : List Char) (d : Char) (hd : d ∉ data) :
    ∀ (w pos : Nat), scanRange data d pos w = [] := by
  intro w
  induction w with
  | zero => intro pos; rfl
  | succ w ih =>
    intro pos
    rw [scanRange, ih (pos + 1)]
    have hc : data.get? pos ≠ some d := by
      intro h
      rw [List.get?_eq_getElem?] at h
      exact hd (List.getElem?_mem h)
    rw [if_neg hc]
    rfl

/-- The field loop relates to the token list: running the loop and then the
trailing-field step equals folding the field action over the token list. -/
theorem fieldLoop_tokenizeLoop (message : List Char) :
    ∀ (ds : List Nat) (msg : FIXMessage) (start : Nat),
      (if (fieldLoop message msg start ds).2 < message.length
        then applyField (fieldLoop message msg start ds).1
          (message.drop (fieldLoop message msg start ds).2)
        else (fieldLoop message msg start ds).1)
      = (tokenizeLoop message start ds).foldl applyField msg := by
  intro ds
  induction ds with
  | nil =>
    intro msg start
    rw [fieldLoop, tokenizeLoop]
    by_cases h : start < message.length
    · rw [if_pos h, if_pos h]
      rfl
    · rw [if_neg h, if_neg h]
      rfl
  | cons dp rest ih =>
    intro msg start
    rw [fieldLoop, tokenizeLoop, List.foldl_append]
    rw [ih]
    by_cases h : start < dp
    · rw [if_pos h, if_pos h]
      rfl
    · rw [if_neg h, if_neg h]
      rfl

theorem parse_core_eq_tokenizeLoop (message : List Char) (ds : List Nat) :
    parse_core message ds = setValid ((tokenizeLoop message 0 ds).foldl applyField {}) := by
  unfold parse_core setValid
  rw [← fieldLoop_tokenizeLoop message ds {} 0]

/-- The scalar parser is the fold of the field action over the token list,
followed by validity stamping. -/
theorem parse_scalar_eq_tokenize (m : List Char) :
    parse_scalar m = setValid ((tokenize m).foldl applyField {}) := by
  unfold parse_scalar tokenize
  by_cases h : m = []
  · rw [if_pos h, if_pos h]
    rfl
  · rw [if_neg h, if_neg h]
    exact parse_core_eq_tokenizeLoop m _

/-- The SIMD parser equals the scalar parser on every input. -/
theorem parse_simd_eq_parse_scalar (m : List Char) :
    parse_simd m = parse_scalar m := by
  unfold parse_simd parse_scalar
  rw [find_delimiters_simd_eq_scalar]

theorem setValid_message_type (msg : FIXMessage) :
    (setValid msg).message_type = msg.message_type := rfl

theorem setValid_symbol (msg : FIXMessage) :
    (setValid msg).symbol = msg.symbol := rfl

theorem setValid_spec (msg : FIXMessage) :
    (setValid msg).valid = true ↔
      (setValid msg).message_type ≠ [] ∧ (setValid msg).symbol ≠ [] := by
  rw [setValid_message_type, setValid_symbol]
  show (!msg.message_type.isEmpty && !msg.symbol.isEmpty) = true ↔ _
  simp [List.isEmpty_iff]

/-- Every field the tokenization step emits is nonempty, provided every
boundary position is inside the buffer (which the scanners guarantee). -/
theorem tokenizeLoop_ne_nil (m : List Char) :
    ∀ (ds : List Nat) (start : Nat), (∀ dp ∈ ds, dp < m.length) →
      ∀ f ∈ tokenizeLoop m start ds, f ≠ [] := by
  intro ds
  induction ds with
  | nil =>
    intro start _ f hf
    rw [tokenizeLoop] at hf
    by_cases h : start < m.length
    · rw [if_pos h] at hf
      simp at hf
      subst hf
      intro hnil
      rw [List.drop_eq_nil_iff] at hnil
      omega
    · rw [if_neg h] at hf
      simp at hf
  | cons dp rest ih =>
    intro start hds f hf
    rw [tokenizeLoop] at hf
    rcases List.mem_append.mp hf with h1 | h2
    · by_cases h : start < dp
      · rw [if_pos h] at h1
        simp at h1
        subst h1
        have hdp : dp < m.length := hds dp (by simp)
        intro hnil
        have hlen : ((m.drop start).take (dp - start)).length = 0 := by
          rw [hnil]; rfl
        rw [List.length_take, List.length_drop] at hlen
        omega
      · rw [if_neg h] at h1
        simp at h1
    · exact ih (dp + 1) (fun q hq => hds q (by simp [hq])) f h2

theorem lastCursor_of_getLast? :
    ∀ (ds : List Nat) (start dp : Nat), ds.getLast? = some dp →
      lastCursor start ds = dp + 1 := by
  intro ds
  induction ds with
  | nil => intro start dp h; simp at h
  | cons q rest ih =>
    intro start dp h
    cases rest with
    | nil =>
      simp at h
      subst h
      rfl
    | cons r t =>
      rw [List.getLast?_cons_cons] at h
      exact ih (q + 1) dp h

/-- When the final cursor lands inside the buffer (the message does not end
with a delimiter), the last emitted field is exactly the trailing slice. -/
theorem tokenizeLoop_getLast (m : List Char) :
    ∀ (ds : List Nat) (start : Nat), lastCursor start ds < m.length →
      (tokenizeLoop m start ds).getLast? = some (m.drop (lastCursor start ds)) := by
  intro ds
  induction ds with
  | nil =>
    intro start h
    have h2 : start < m.length := h
    rw [tokenizeLoop, if_pos h2]
    rfl
  | cons dp rest ih =>
    intro start h
    rw [tokenizeLoop]
    have h2 := ih (dp + 1) h
    have hne : tokenizeLoop m (dp + 1) rest ≠ [] := by
      intro hnil
      rw [hnil] at h2
      simp at h2
    rw [List.getLast?_append_of_ne_nil _ hne]
    exact h2

theorem lastFieldStart_lt (m : List Char) (hm : m ≠ []) (hl : m.getLast? ≠ some '|') :
    lastFieldStart m < m.length := by
  unfold lastFieldStart
  cases h : (find_delimiters_scalar m '|').getLast? with
  | none =>
    have hds : find_delimiters_scalar m '|' = [] := by
      cases hds : find_delimiters_scalar m '|' with
      | nil => rfl
      | cons a t =>
        rw [hds] at h
        simp [List.getLast?] at h
    rw [hds]
    show 0 < m.length
    exact List.length_pos.mpr hm
  | some dp =>
    rw [lastCursor_of_getLast? _ 0 dp h]
    have hmem : dp ∈ find_delimiters_scalar m '|' := by
      rw [List.getLast?_eq_getElem?] at h
      exact List.getElem?_mem h
    have hchar : m.get? dp = some '|' := scanRange_char m '|' m.length 0 dp hmem
    have hlt : dp < m.length := by
      have := scanRange_mem m '|' m.length 0 dp hmem
      omega
    by_contra hge
    have hend : m.length - 1 = dp := by omega
    apply hl
    rw [List.getLast?_eq_getElem?, hend, ← List.get?_eq_getElem?]
    exact hchar

theorem tokenize_no_delim (m : List Char) (hm : m ≠ []) (hd : '|' ∉ m) :
    tokenize m = [m] := by
  unfold tokenize find_delimiters_scalar
  rw [if_neg hm, scanRange_of_not_mem m '|' hd, tokenizeLoop,
    if_pos (List.length_pos.mpr hm), List.drop_zero]

theorem findChar_eq_none (c : Char) :
    ∀ (l : List Char), c ∉ l → findChar c l = none := by
  intro l
  induction l with
  | nil => intro _; rfl
  | cons a t ih =>
    intro h
    rw [findChar]
    have ha : ¬(a = c) := fun hac => h (by rw [hac]; simp)
    rw [if_neg ha, ih (fun hc => h (by simp [hc]))]
    rfl

theorem takeWhile_all {p : Char → Bool} :
    ∀ (l : List Char), (∀ a ∈ l, p a = true) → l.takeWhile p = l := by
  intro l
  induction l with
  | nil => intro _; rfl
  | cons a t ih =>
    intro h
    rw [List.takeWhile_cons, h a (by simp), ih (fun b hb => h b (by simp [hb]))]
    rfl

/-- C1: for every input buffer and every delimiter byte,
`find_delimiters_scalar` and `find_delimiters_simd` return exactly the same
position list — in particular for empty input, input shorter than one
64-byte chunk, input exactly one chunk, and input spanning multiple chunks
plus a remainder, all instances of the universally quantified statement. -/
theorem C1_scanner_equivalence (data : List Char) (d : Char) :
    find_delimiters_scalar data d = find_delimiters_simd data d :=
  (find_delimiters_simd_eq_scalar data d).symm

/-- C9: the position list of either scanner is strictly ascending and every
position in it is a valid in-bounds index of the input. -/
theorem C9_positions_ascending_in_bounds (data : List Char) (d : Char) :
    List.Pairwise (· < ·) (find_delimiters_scalar data d) ∧
    (∀ p ∈ find_delimiters_scalar data d, p < data.length) ∧
    List.Pairwise (· < ·) (find_delimiters_simd data d) ∧
    (∀ p ∈ find_delimiters_simd data d, p < data.length) := by
  have hp : List.Pairwise (· < ·) (find_delimiters_scalar data d) :=
    scanRange_pairwise data d data.length 0
  have hb : ∀ p ∈ find_delimiters_scalar data d, p < data.length := by
    intro p hmem
    have := scanRange_mem data d data.length 0 p hmem
    omega
  refine ⟨hp, hb, ?_, ?_⟩ <;> rw [find_delimiters_simd_eq_scalar]
  · exact hp
  · exact hb

/-- C2: the record returned by `parse_scalar` (and by `parse_simd`) has its
valid flag true if and only if, after all key/value pairs have been applied
in input order, both the message-type slot and the symbol slot of the
returned record are nonempty. -/
theorem C2_record_validity_law (m : List Char) :
    ((parse_scalar m).valid = true ↔
      (parse_scalar m).message_type ≠ [] ∧ (parse_scalar m).symbol ≠ []) ∧
    ((parse_simd m).valid = true ↔
      (parse_simd m).message_type ≠ [] ∧ (parse_simd m).symbol ≠ []) := by
  constructor
  · rw [parse_scalar_eq_tokenize]
    exact setValid_spec _
  · rw [parse_simd_eq_parse_scalar, parse_scalar_eq_tokenize]
    exact setValid_spec _

/-- C3: the tokenization step of `parse_scalar` and `parse_simd` (both equal
the fold of the field action over `tokenize`) satisfies the boundary law:
text without a delimiter is processed as the single field `m`; no emitted
field is ever empty (in particular nothing is emitted for the zero-length
slice at the start of text beginning with a delimiter); and when the text
does not end with a delimiter the last processed field is the remainder
after the last delimiter. -/
theorem C3_tokenizer_boundary_law (m : List Char) :
    parse_scalar m = setValid ((tokenize m).foldl applyField {}) ∧
    parse_simd m = setValid ((tokenize m).foldl applyField {}) ∧
    (m ≠ [] → '|' ∉ m → tokenize m = [m]) ∧
    (∀ f ∈ tokenize m, f ≠ []) ∧
    (m ≠ [] → m.getLast? ≠ some '|' →
      (tokenize m).getLast? = some (m.drop (lastFieldStart m)) ∧
        m.drop (lastFieldStart m) ≠ []) := by
  refine ⟨parse_scalar_eq_tokenize m,
    (parse_simd_eq_parse_scalar m).trans (parse_scalar_eq_tokenize m),
    tokenize_no_delim m, ?_, ?_⟩
  · intro f hf
    unfold tokenize at hf
    by_cases hm : m = []
    · rw [if_pos hm] at hf
      simp at hf
    · rw [if_neg hm] at hf
      refine tokenizeLoop_ne_nil m _ 0 ?_ f hf
      intro dp hdp
      have := scanRange_mem m '|' m.length 0 dp hdp
      omega
  · intro hm hl
    have hlt := lastFieldStart_lt m hm hl
    constructor
    · unfold tokenize
      rw [if_neg hm]
      exact tokenizeLoop_getLast m _ 0 hlt
    · intro hnil
      rw [List.drop_eq_nil_iff] at hnil
      omega

theorem C3_witness :
    tokenize ("ab".toList) = ["ab".toList] ∧
    (tokenize ("ab".toList)).getLast?
      = some (("ab".toList).drop (lastFieldStart ("ab".toList))) ∧
    ("ab".toList).drop (lastFieldStart ("ab".toList)) ≠ [] :=
  ⟨(C3_tokenizer_boundary_law ("ab".toList)).2.2.1 (by decide) (by decide),
   ((C3_tokenizer_boundary_law ("ab".toList)).2.2.2.2 (by decide) (by decide)).1,
   ((C3_tokenizer_boundary_law ("ab".toList)).2.2.2.2 (by decide) (by decide)).2⟩

/-- C4: a field without '=', or with '=' first, is silently dropped — it
leaves the record unchanged — and the remaining fields of the same input are
still processed: for "35D|55=AAPL|" the symbol still resolves to "AAPL",
the message-type slot stays empty, and the record is invalid. -/
theorem C4_malformed_field_dropped :
    (∀ (msg : FIXMessage) (f : List Char), ('=' ∉ f ∨ f.head? = some '=') →
      applyField msg f = msg) ∧
    (parse_scalar ("35D|55=AAPL|".toList)).symbol = "AAPL".toList ∧
    (parse_scalar ("35D|55=AAPL|".toList)).message_type = [] ∧
    (parse_scalar ("35D|55=AAPL|".toList)).valid = false := by
  refine ⟨?_, by decide, by decide, by decide⟩
  intro msg f hf
  have hsplit : split_field f = none := by
    rcases hf with h1 | h2
    · unfold split_field
      rw [findChar_eq_none '=' f h1]
    · rcases f with _ | ⟨c, t⟩
      · simp at h2
      · simp at h2
        subst h2
        rfl
  unfold applyField
  rw [hsplit]

theorem C4_witness : applyField {} ("35D".toList) = {} :=
  C4_malformed_field_dropped.1 {} ("35D".toList) (by decide)

/-- C5: writing the same recognized tag twice keeps the later value
(last-write-wins, for every tag — unrecognized tags leave the record
unchanged on both sides), and concretely "35=D|55=FIRST|55=SECOND|"
resolves the symbol to "SECOND". -/
theorem C5_last_write_wins :
    (∀ (msg : FIXMessage) (tag : Nat) (v1 v2 : List Char),
      populate_message (populate_message msg tag v1) tag v2
        = populate_message msg tag v2) ∧
    (parse_scalar ("35=D|55=FIRST|55=SECOND|".toList)).symbol = "SECOND".toList := by
  refine ⟨?_, by decide⟩
  intro msg tag v1 v2
  unfold populate_message
  split_ifs <;> rfl

theorem intPartLoop_1e5 : intPartLoop ['1', 'e', '5'] 0 = (15, []) := by
  rw [intPartLoop, if_neg (show ¬('1' = '.') from by decide),
    if_pos (show Char.isDigit '1' = true from by decide),
    intPartLoop, if_neg (show ¬('e' = '.') from by decide),
    if_neg (show ¬(Char.isDigit 'e' = true) from by decide),
    intPartLoop, if_neg (show ¬('5' = '.') from by decide),
    if_pos (show Char.isDigit '5' = true from by decide),
    intPartLoop,
    show ('1'.toNat - 48 : Nat) = 1 from by decide,
    show ('5'.toNat - 48 : Nat) = 5 from by decide]
  norm_num

theorem intPartLoop_one : intPartLoop ['1'] 0 = (1, []) := by
  rw [intPartLoop, if_neg (show ¬('1' = '.') from by decide),
    if_pos (show Char.isDigit '1' = true from by decide),
    intPartLoop,
    show ('1'.toNat - 48 : Nat) = 1 from by decide]
  norm_num

theorem parse_double_1e5 : parse_double ("1e5".toList) = 15 := by
  show parse_double ['1', 'e', '5'] = 15
  have hs : stripSign ['1', 'e', '5'] = (false, ['1', 'e', '5']) := by decide
  simp [parse_double, hs, intPartLoop_1e5]

theorem parse_double_one : parse_double ("1".toList) = 1 := by
  show parse_double ['1'] = 1
  have hs : stripSign ['1'] = (false, ['1']) := by decide
  simp [parse_double, hs, intPartLoop_one]

/-- C6 counterexample: on scientific-notation input "1e5" the manual
fallback of `parse_double` returns 15 — not zero and not the value of the
leading non-exponent content "1" — because the integer-part loop skips the
'e' instead of stopping and folds the exponent digit into the mantissa. -/
theorem C6_counterexample :
    parse_double ("1e5".toList) = 15 ∧
    ¬(parse_double ("1e5".toList) = parse_double ("1".toList) ∨
      parse_double ("1e5".toList) = 0) := by
  rw [parse_double_1e5, parse_double_one]
  norm_num

/-- C6 amended: `parse_double`'s manual fallback does not understand
exponential notation and never fails, but its result on "1e5" is 15 — the
integer-part loop silently skips every character that is neither a digit nor
'.', folding the exponent digits into the mantissa — and in particular it is
not the exponent-scaled value 100000. -/
theorem C6_amended_fallback_value :
    parse_double ("1e5".toList) = 15 ∧ ¬((15 : ℚ) = 100000) := by
  rw [parse_double_1e5]
  norm_num

/-- C7: `parse_int` returns zero whenever the input has no valid leading
digits — the character after the optional leading minus (if any) is not a
decimal digit; this covers the empty string, a lone minus, and any input
whose first non-sign character is not a digit. -/
theorem C7_no_digits_zero (s : List Char)
    (h : ∀ c ∈ (stripSign s).2.take 1, c.isDigit = false) :
    parse_int s = 0 := by
  have hds : (stripSign s).2.takeWhile Char.isDigit = [] := by
    cases hr : (stripSign s).2 with
    | nil => rfl
    | cons c t =>
      have hc : c.isDigit = false := by
        apply h
        rw [hr]
        simp
      rw [List.takeWhile_cons, hc]
      rfl
  have h1 : fromCharsInt32 s = none := by
    simp [fromCharsInt32, hds]
  have h2 : parse_int_fallback s = 0 := by
    simp [parse_int_fallback, hds, accumDigits]
  simp [parse_int, h1, h2]

theorem C7_witness :
    parse_int ("abc".toList) = 0 ∧ parse_int ("-".toList) = 0 ∧
    parse_int ([] : List Char) = 0 :=
  ⟨C7_no_digits_zero ("abc".toList) (by decide),
   C7_no_digits_zero ("-".toList) (by decide),
   C7_no_digits_zero ([] : List Char) (by decide)⟩

/-- C10: a key text made of a digit run (in the int32 range) followed by
non-digit characters parses to the same tag as the digit run alone, because
`parse_int`'s fast path stops at the first non-digit; hence a field like
"35x=D" populates the message-type slot exactly as "35=D" does. -/
theorem C10_trailing_key_chars_ignored (ds t : List Char) (h1 : ds ≠ [])
    (h2 : ∀ c ∈ ds, c.isDigit = true) (h3 : ∀ c ∈ t.take 1, c.isDigit = false)
    (h4 : (accumDigits ds : Int) ≤ 2 ^ 31 - 1) :
    parse_int (ds ++ t) = parse_int ds ∧
    parse_scalar ("35x=D|55=AAPL|".toList) = parse_scalar ("35=D|55=AAPL|".toList) := by
  refine ⟨?_, by decide⟩
  obtain ⟨c, ds2, rfl⟩ : ∃ c ds2, ds = c :: ds2 := by
    cases ds with
    | nil => exact absurd rfl h1
    | cons c d2 => exact ⟨c, d2, rfl⟩
  have hcdig : c.isDigit = true := h2 c (by simp)
  have hcne : ¬(c = '-') := by
    intro hc
    subst hc
    exact absurd hcdig (by decide)
  have hstrip1 : stripSign ((c :: ds2) ++ t) = (false, (c :: ds2) ++ t) := by
    show (if c = '-' then (true, ds2 ++ t) else (false, c :: (ds2 ++ t))) = _
    rw [if_neg hcne]
    rfl
  have hstrip2 : stripSign (c :: ds2) = (false, c :: ds2) := by
    show (if c = '-' then (true, ds2) else (false, c :: ds2)) = _
    rw [if_neg hcne]
  have htw_t : t.takeWhile Char.isDigit = [] := by
    cases ht : t with
    | nil => rfl
    | cons a u =>
      have ha : a.isDigit = false := by
        apply h3
        rw [ht]
        simp
      rw [List.takeWhile_cons, ha]
      rfl
  have htw1 : ((c :: ds2) ++ t).takeWhile Char.isDigit = c :: ds2 := by
    rw [List.takeWhile_append_of_pos h2, htw_t, List.append_nil]
  have htw2 : (c :: ds2).takeWhile Char.isDigit = c :: ds2 := takeWhile_all _ h2
  have hs1a : (stripSign ((c :: ds2) ++ t)).1 = false := by rw [hstrip1]
  have hs2a : (stripSign ((c :: ds2) ++ t)).2 = (c :: ds2) ++ t := by rw [hstrip1]
  have hs1b : (stripSign (c :: ds2)).1 = false := by rw [hstrip2]
  have hs2b : (stripSign (c :: ds2)).2 = c :: ds2 := by rw [hstrip2]
  have hfc1 : fromCharsInt32 ((c :: ds2) ++ t) = some (accumDigits (c :: ds2) : Int) := by
    unfold fromCharsInt32
    rw [hs2a, htw1, hs1a, if_neg (List.cons_ne_nil c ds2),
      if_neg (show ¬(false = true) from by decide), if_pos h4]
  have hfc2 : fromCharsInt32 (c :: ds2) = some (accumDigits (c :: ds2) : Int) := by
    unfold fromCharsInt32
    rw [hs2b, htw2, hs1b, if_neg (List.cons_ne_nil c ds2),
      if_neg (show ¬(false = true) from by decide), if_pos h4]
  unfold parse_int
  rw [hfc1, hfc2]

theorem C10_witness :
    parse_int ("35".toList ++ "x".toList) = parse_int ("35".toList) ∧
    parse_scalar ("35x=D|55=AAPL|".toList) = parse_scalar ("35=D|55=AAPL|".toList) :=
  C10_trailing_key_chars_ignored ("35".toList) ("x".toList)
    (by decide) (by decide) (by decide) (by decide)

/-- C8: the empty input buffer makes `parse_scalar` and `parse_simd` return
the default record: invalid, all four text slots empty, and side, quantity
and price zero. -/
theorem C8_empty_input_default :
    parse_scalar [] = {} ∧ parse_simd [] = {} ∧
    ({} : FIXMessage).valid = false ∧ ({} : FIXMessage).message_type = [] ∧
    ({} : FIXMessage).symbol = [] ∧ ({} : FIXMessage).sender = [] ∧
    ({} : FIXMessage).target = [] ∧ ({} : FIXMessage).side = 0 ∧
    ({} : FIXMessage).quantity = 0 ∧ ({} : FIXMessage).price = 0 :=
  ⟨rfl, rfl, rfl, rfl, rfl, rfl, rfl, rfl, rfl, rfl⟩
